import Mathlib

/-!
Shallow embedding of `src/main.rs` of the rust-linecounter repository.

File contents are byte lists (`List Nat`, each byte < 256 in intended use).
A sequence of `read` calls on an open file is modelled as a `List ReadResult`:
`ReadResult.ok bytes` is a successful read returning those bytes
(`ok []` is the `Ok(0)` end-of-stream case), `ReadResult.err msg` is a failed
read.  Counting routines return the `i32` total together with the list of
lines printed to the standard error channel.  The `i32` accumulator is
modelled exactly: totals live in the interval from `-2 ^ 31` to `2 ^ 31 - 1`
and every addition (`total += ...`) and the truncating `as i32` cast apply
the two's-complement wrap `wrap32` — the release-profile overflow semantics
(a debug build would abort at the same point instead of wrapping).
-/

namespace LineCounter

/-- Model of one `file.read(&mut buffer)` call outcome. -/
inductive ReadResult where
  | ok (bytes : List Nat) : ReadResult
  | err (msg : String) : ReadResult
deriving DecidableEq

/-- Two's-complement reduction to the `i32` range: the value `n` represents
as a 32-bit signed integer.  `wrap32` models both the truncating `as i32`
cast and the wrap-around of an overflowing `i32` addition. -/
def wrap32 (n : Int) : Int :=
  (n + 2147483648) % 4294967296 - 2147483648

/-- Loop of `count_newlines_fast` (src/main.rs lines 104-122): accumulate the
number of `\n` (byte 10) occurrences per chunk (`bytecount::count` cast to
`i32` and added to the `i32` total, both with 32-bit wrap); stop at `Ok(0)`
or at a read error, in which case the error is printed to stderr and the
running total is returned. -/
def count_newlines_fast_aux (total : Int) : List ReadResult → Int × List String
  | [] => (total, [])
  | ReadResult.ok [] :: _ => (total, [])
  | ReadResult.err e :: _ => (total, ["Read error: " ++ e])
  | ReadResult.ok chunk :: rest =>
      count_newlines_fast_aux (wrap32 (total + wrap32 (chunk.count 10 : Int)))
        rest

/-- Model of `count_newlines_fast` (src/main.rs lines 104-122). -/
def count_newlines_fast (reads : List ReadResult) : Int × List String :=
  count_newlines_fast_aux 0 reads

/-- Per-byte transition of the inner `match` of `count_nonempty_lines`
(src/main.rs lines 141-151): state is `(total, has_data)`.  Byte 10 is `\n`,
13 is `\r`, 32 is space, 9 is tab. -/
def neStep (st : Int × Bool) (b : Nat) : Int × Bool :=
  if b = 10 then (if st.2 then wrap32 (st.1 + 1) else st.1, false)
  else if b = 13 ∨ b = 32 ∨ b = 9 then st
  else (st.1, true)

/-- Loop of `count_nonempty_lines` (src/main.rs lines 124-159): fold `neStep`
over every chunk; at `Ok(0)` add one more line if `has_data` is still set; at
a read error print to stderr and return the running total as is. -/
def count_nonempty_lines_aux (total : Int) (has_data : Bool) :
    List ReadResult → Int × List String
  | [] => (if has_data then wrap32 (total + 1) else total, [])
  | ReadResult.ok [] :: _ => (if has_data then wrap32 (total + 1) else total, [])
  | ReadResult.err e :: _ => (total, ["Read error: " ++ e])
  | ReadResult.ok chunk :: rest =>
      let st := chunk.foldl neStep (total, has_data)
      count_nonempty_lines_aux st.1 st.2 rest

/-- Model of `count_nonempty_lines` (src/main.rs lines 124-159). -/
def count_nonempty_lines (reads : List ReadResult) : Int × List String :=
  count_nonempty_lines_aux 0 false reads

/-- Split a byte list into consecutive chunks of size `c` (the last one
possibly shorter); empty for `c = 0`. -/
def chunksOf (c : Nat) : List Nat → List (List Nat)
  | [] => []
  | b :: l =>
      if h : c = 0 then []
      else (b :: l).take c :: chunksOf c ((b :: l).drop c)
termination_by l => l.length
decreasing_by
  simp only [List.length_drop, List.length_cons]
  omega

/-- The read sequence produced by reading `content` through a buffer of size
`c` when no I/O error occurs: full chunks of `c` bytes, then `Ok(0)`.  For
`c = 0` every `read` into the zero-length buffer returns zero bytes at once. -/
def readsOf (c : Nat) (content : List Nat) : List ReadResult :=
  (chunksOf c content).map ReadResult.ok ++ [ReadResult.ok []]

/-- Decimal value of a non-empty all-digit character list, `none` otherwise:
the success cases of `str::parse::<usize>` modulo the overflow bound. -/
def decValue (s : List Char) : Option Nat :=
  if s ≠ [] ∧ s.all (fun c => c.isDigit) then
    some (s.foldl (fun n c => n * 10 + (c.toNat - 48)) 0)
  else none

/-- Model of `parse_buffer_size` (src/main.rs lines 64-72): `s.parse::<usize>()`
accepts an optional leading `+` followed by one or more ASCII digits whose
value fits in `usize` (at most `2 ^ 64 - 1`); on success the kilobyte count
is scaled to bytes, on failure a warning is printed to stderr and the 8 KiB
default is used.  Result is `(stderr lines, buffer size in bytes)`. -/
def parse_buffer_size (s : String) : List String × Nat :=
  let digits := match s.toList with
    | '+' :: rest => rest
    | l => l
  match decValue digits with
  | some kb =>
      if kb < 2 ^ 64 then ([], kb * 1024)
      else (["Invalid buffer size. Using 8 KB."], 8 * 1024)
  | none => (["Invalid buffer size. Using 8 KB."], 8 * 1024)

/-- The 41-entry extension allow list `FILE_EXT_LIST` (src/main.rs lines 8-15). -/
def FILE_EXT_LIST : List String := [
  "txt", "text", "md", "markdown", "log",
  "rs", "py", "js", "ts", "java", "c", "cpp", "h", "hpp",
  "go", "rb", "php", "swift", "kt", "scala", "r",
  "html", "htm", "css", "scss", "sass", "less",
  "xml", "svg", "json", "yaml", "yml", "toml", "ini",
  "csv", "tsv", "sql", "sh", "bash", "conf", "config"]

/-- Rust `u8::to_ascii_lowercase` lifted to `Char`: only `A`-`Z` are mapped. -/
def asciiLower (c : Char) : Char :=
  if 'A' ≤ c ∧ c ≤ 'Z' then Char.ofNat (c.toNat + 32) else c

/-- Split a file name at its last `.`: `some (before, after)` where `after`
is everything after the final dot, `none` when the name contains no dot. -/
def splitLastDot : List Char → Option (List Char × List Char)
  | [] => none
  | c :: rest =>
      match splitLastDot rest with
      | some (b, a) => some (c :: b, a)
      | none => if c = '.' then some ([], rest) else none

/-- Rust `Path::extension` on a file name (the path's final component):
`none` for the special name `..`, for a name with no dot, and for a name
whose only dot is its leading character; otherwise the part after the last
dot. -/
def extOf (name : List Char) : Option (List Char) :=
  if name = ['.', '.'] then none
  else
    match splitLastDot name with
    | none => none
    | some ([], _) => none
    | some (_ :: _, after) => some after

/-- Model of `is_valid_ext` (src/main.rs lines 74-82): the name has an
extension and its ASCII-lowercased form equals some allow-list entry. -/
def is_valid_ext (name : List Char) : Bool :=
  match extOf name with
  | some ext => FILE_EXT_LIST.any fun allowed => allowed.toList == ext.map asciiLower
  | none => false

/-- Outcome of `File::open` on a path, abstracting the file system: a
successful open carries the sequence of read outcomes the handle will
deliver, a failed open carries the error description. -/
inductive OpenResult where
  | ok (reads : List ReadResult) : OpenResult
  | err (msg : String) : OpenResult

/-- Model of `process_file` (src/main.rs lines 84-102).  The file system is a
function `fs` from paths (file names) to open outcomes; the result pairs the
returned `i32` with the stderr lines.  A rejected extension returns before
`fs` is consulted. -/
def process_file (fs : List Char → OpenResult) (path : List Char)
    (skip_empty : Bool) : Int × List String :=
  if ¬ is_valid_ext path then (0, [])
  else
    match fs path with
    | OpenResult.err e =>
        (0, ["Cannot open " ++ String.mk path ++ ": " ++ e])
    | OpenResult.ok reads =>
        if skip_empty then count_nonempty_lines reads
        else count_newlines_fast reads

/-- A file system tree: a file carries a label identifying it; a directory
carries whether `read_dir` on it succeeds and its entries. -/
inductive FsTree where
  | file (label : Nat) : FsTree
  | dir (readable : Bool) (entries : List FsTree) : FsTree

/-- Size measure used for walker termination. -/
def treeSize : FsTree → Nat
  | FsTree.file _ => 1
  | FsTree.dir _ es => 1 + (es.attach.map fun t => treeSize t.1).sum
decreasing_by
  have h1 := List.sizeOf_lt_of_mem t.2
  simp only [FsTree.dir.sizeOf_spec]
  omega

/-- Model of `walk_shallow` (src/main.rs lines 184-188): `read_dir(path)` is
`unwrap`ped, so listing the immediate entries of a readable directory yields
exactly those entries, while an unreadable directory (or a non-directory)
makes `unwrap` panic, modelled as `none`. -/
def walk_shallow : FsTree → Option (List FsTree)
  | FsTree.dir true es => some es
  | _ => none

/-- Model of `walk_recursive` (src/main.rs lines 190-207) acting on its
explicit stack (head of the list = top of the stack, as entries are pushed
in order a directory's entries end up popped in reverse order).  Popping a
directory expands it when readable and skips it silently otherwise; popping
a file yields its label. -/
def walk_recursive : List FsTree → List Nat
  | [] => []
  | FsTree.file l :: rest => l :: walk_recursive rest
  | FsTree.dir false _ :: rest => walk_recursive rest
  | FsTree.dir true es :: rest => walk_recursive (es.reverse ++ rest)
termination_by stack => (stack.map treeSize).sum
decreasing_by
  · simp only [List.map_cons, List.sum_cons, treeSize]
    omega
  · simp only [List.map_cons, List.sum_cons, treeSize]
    omega
  · have h1 : treeSize (FsTree.dir true es) = 1 + (es.map treeSize).sum := by
      simp only [treeSize, List.attach_map_val]
    simp only [List.map_append, List.map_reverse, List.sum_append,
      List.sum_reverse, List.map_cons, List.sum_cons, h1]
    omega

/-- The files reachable from a tree through readable directories, in entry
order: the reference enumeration that the recursive walker must visit. -/
def filesOf : FsTree → List Nat
  | FsTree.file l => [l]
  | FsTree.dir false _ => []
  | FsTree.dir true es => (es.attach.map fun t => filesOf t.1).flatten
decreasing_by
  have h1 := List.sizeOf_lt_of_mem t.2
  simp only [FsTree.dir.sizeOf_spec]
  omega

/-- The end-of-stream step of `count_nonempty_lines` (src/main.rs lines
131-135): one more line is added (with `i32` wrap) when the flag is still
set. -/
def finalizeNE (st : Int × Bool) : Int :=
  if st.2 then wrap32 (st.1 + 1) else st.1

/-- The bytes `count_nonempty_lines` treats as non-contributing whitespace:
carriage return, space, tab. -/
def isWs (b : Nat) : Bool :=
  b == 13 || b == 32 || b == 9

/-- A line segment contains data when some byte of it is not whitespace. -/
def hasData (seg : List Nat) : Bool :=
  seg.any fun b => ! isWs b

/-- Reference splitting of a byte list at newline bytes: the list of line
segments, including the final (possibly empty) unterminated segment, so that
a content ending in a newline ends with an empty segment. -/
def splitNl : List Nat → List (List Nat)
  | [] => [[]]
  | b :: rest =>
      if b = 10 then [] :: splitNl rest
      else (splitNl rest).modifyHead fun s => b :: s

/-- Number of data-carrying segments of a segment list whose first segment is
additionally counted when the flag `h` is set: the abstract meaning of the
`(total, has_data)` loop state of `count_nonempty_lines`. -/
def countSegs (h : Bool) : List (List Nat) → Int
  | [] => 0
  | s :: ss => (if h || hasData s then 1 else 0) + (ss.countP hasData : Int)

/-! ### Helper lemmas -/

theorem wrap32_range (n : Int) : -2147483648 ≤ wrap32 n ∧ wrap32 n < 2147483648 := by
  rw [wrap32]
  have h1 := Int.emod_nonneg (n + 2147483648)
    (by norm_num : (4294967296 : Int) ≠ 0)
  have h2 := Int.emod_lt_of_pos (n + 2147483648)
    (by norm_num : (0 : Int) < 4294967296)
  omega

theorem wrap32_eq_self (n : Int) (h1 : -2147483648 ≤ n) (h2 : n < 2147483648) :
    wrap32 n = n := by
  rw [wrap32]
  rw [Int.emod_eq_of_lt (by omega) (by omega)]
  omega

theorem wrap32_idem (n : Int) : wrap32 (wrap32 n) = wrap32 n :=
  wrap32_eq_self (wrap32 n) (wrap32_range n).1 (wrap32_range n).2

theorem wrap32_zero : wrap32 0 = 0 :=
  wrap32_eq_self 0 (by norm_num) (by norm_num)

theorem wrap32_add_mul (x k : Int) : wrap32 (x + 4294967296 * k) = wrap32 x := by
  rw [wrap32, wrap32, add_right_comm, Int.add_mul_emod_self_left]

theorem wrap32_add_left (a b : Int) :
    wrap32 (wrap32 a + b) = wrap32 (a + b) := by
  have h : wrap32 a + b =
      (a + b) + 4294967296 * (-((a + 2147483648) / 4294967296)) := by
    rw [wrap32, Int.emod_def]
    ring
  rw [h, wrap32_add_mul]

theorem wrap32_add_right (a b : Int) :
    wrap32 (a + wrap32 b) = wrap32 (a + b) := by
  rw [add_comm, wrap32_add_left, add_comm]

theorem wrap32_nonneg (n : Int) (h1 : 0 ≤ n) (h2 : n < 2147483648) :
    0 ≤ wrap32 n := by
  rw [wrap32_eq_self n (by omega) h2]
  exact h1

theorem wrap32_two_pow_31 : wrap32 (((2 ^ 31 : Nat) : Int)) = -2147483648 := by
  norm_num [wrap32]

theorem wrap32_acc (t c r : Int) :
    wrap32 (wrap32 (t + wrap32 c) + r) = wrap32 (t + (c + r)) := by
  rw [wrap32_add_left, add_right_comm, wrap32_add_right]
  congr 1
  ring

theorem treeSize_dir (r : Bool) (es : List FsTree) :
    treeSize (FsTree.dir r es) = 1 + (es.map treeSize).sum := by
  simp only [treeSize, List.attach_map_val]

theorem filesOf_dir_true (es : List FsTree) :
    filesOf (FsTree.dir true es) = (es.map filesOf).flatten := by
  simp only [filesOf, List.attach_map_val]

theorem treeSize_pos (t : FsTree) : 1 ≤ treeSize t := by
  cases t with
  | file l => simp [treeSize]
  | dir r es => rw [treeSize_dir]; omega

theorem chunksOf_zero (l : List Nat) : chunksOf 0 l = [] := by
  cases l <;> simp [chunksOf]

theorem chunksOf_cons (c : Nat) (hc : 0 < c) (b : Nat) (l : List Nat) :
    chunksOf c (b :: l) = (b :: l).take c :: chunksOf c ((b :: l).drop c) := by
  rw [chunksOf]
  exact dif_neg hc.ne'

theorem chunksOf_flatten_len (c : Nat) (hc : 0 < c) :
    ∀ (n : Nat) (l : List Nat), l.length ≤ n → (chunksOf c l).flatten = l := by
  intro n
  induction n with
  | zero =>
      intro l hl
      have h0 : l = [] := List.length_eq_zero.mp (Nat.le_zero.mp hl)
      subst h0
      simp [chunksOf]
  | succ n ih =>
      intro l hl
      match l with
      | [] => simp [chunksOf]
      | b :: t =>
          rw [chunksOf_cons c hc, List.flatten_cons, ih ((b :: t).drop c) ?_,
            List.take_append_drop]
          simp only [List.length_drop, List.length_cons] at hl ⊢
          omega

theorem chunksOf_flatten (c : Nat) (hc : 0 < c) (l : List Nat) :
    (chunksOf c l).flatten = l :=
  chunksOf_flatten_len c hc l.length l le_rfl

theorem chunksOf_ne_nil_len (c : Nat) (hc : 0 < c) :
    ∀ (n : Nat) (l : List Nat), l.length ≤ n →
      ∀ ch ∈ chunksOf c l, ch ≠ [] := by
  intro n
  induction n with
  | zero =>
      intro l hl
      have h0 : l = [] := List.length_eq_zero.mp (Nat.le_zero.mp hl)
      subst h0
      simp [chunksOf]
  | succ n ih =>
      intro l hl ch hch
      match l with
      | [] => simp [chunksOf] at hch
      | b :: t =>
          rw [chunksOf_cons c hc] at hch
          rcases List.mem_cons.mp hch with h1 | h1
          · subst h1
            have : 0 < ((b :: t).take c).length := by
              simp only [List.length_take, List.length_cons]
              omega
            exact List.ne_nil_of_length_pos this
          · refine ih ((b :: t).drop c) ?_ ch h1
            simp only [List.length_drop, List.length_cons] at hl ⊢
            omega

theorem chunksOf_ne_nil (c : Nat) (hc : 0 < c) (l : List Nat) :
    ∀ ch ∈ chunksOf c l, ch ≠ [] :=
  chunksOf_ne_nil_len c hc l.length l le_rfl

theorem count_newlines_fast_aux_chunks (chunks : List (List Nat))
    (hne : ∀ ch ∈ chunks, ch ≠ []) :
    ∀ t : Int, wrap32 t = t → count_newlines_fast_aux t
        (chunks.map ReadResult.ok ++ [ReadResult.ok []]) =
      (wrap32 (t + (chunks.flatten.count 10 : Int)), []) := by
  induction chunks with
  | nil =>
      intro t ht
      simp [count_newlines_fast_aux, ht]
  | cons ch chs ih =>
      intro t ht
      cases ch with
      | nil => exact absurd rfl (hne [] (by simp))
      | cons b bs =>
          simp only [List.map_cons, List.cons_append, count_newlines_fast_aux,
            List.append_eq]
          rw [ih (fun x hx => hne x (by simp [hx])) _ (wrap32_idem _)]
          simp only [List.flatten_cons, List.count_append]
          push_cast
          rw [wrap32_acc]

theorem count_newlines_fast_aux_chunks_err (chunks : List (List Nat))
    (hne : ∀ ch ∈ chunks, ch ≠ []) (e : String) (rest : List ReadResult) :
    ∀ t : Int, wrap32 t = t → count_newlines_fast_aux t
        (chunks.map ReadResult.ok ++ ReadResult.err e :: rest) =
      (wrap32 (t + (chunks.flatten.count 10 : Int)),
        ["Read error: " ++ e]) := by
  induction chunks with
  | nil =>
      intro t ht
      simp [count_newlines_fast_aux, ht]
  | cons ch chs ih =>
      intro t ht
      cases ch with
      | nil => exact absurd rfl (hne [] (by simp))
      | cons b bs =>
          simp only [List.map_cons, List.cons_append, count_newlines_fast_aux,
            List.append_eq]
          rw [ih (fun x hx => hne x (by simp [hx])) _ (wrap32_idem _)]
          simp only [List.flatten_cons, List.count_append]
          push_cast
          rw [wrap32_acc]

theorem count_nonempty_lines_aux_chunks (chunks : List (List Nat))
    (hne : ∀ ch ∈ chunks, ch ≠ []) :
    ∀ (t : Int) (h : Bool), count_nonempty_lines_aux t h
        (chunks.map ReadResult.ok ++ [ReadResult.ok []]) =
      (finalizeNE (chunks.flatten.foldl neStep (t, h)), []) := by
  induction chunks with
  | nil => intro t h; simp [count_nonempty_lines_aux, finalizeNE]
  | cons ch chs ih =>
      intro t h
      cases ch with
      | nil => exact absurd rfl (hne [] (by simp))
      | cons b bs =>
          simp only [List.map_cons, List.cons_append, count_nonempty_lines_aux,
            List.append_eq]
          rw [ih (fun x hx => hne x (by simp [hx]))]
          simp only [List.flatten_cons, List.foldl_append, List.foldl_cons]

theorem count_nonempty_lines_aux_chunks_err (chunks : List (List Nat))
    (hne : ∀ ch ∈ chunks, ch ≠ []) (e : String) (rest : List ReadResult) :
    ∀ (t : Int) (h : Bool), count_nonempty_lines_aux t h
        (chunks.map ReadResult.ok ++ ReadResult.err e :: rest) =
      ((chunks.flatten.foldl neStep (t, h)).1, ["Read error: " ++ e]) := by
  induction chunks with
  | nil => intro t h; simp [count_nonempty_lines_aux]
  | cons ch chs ih =>
      intro t h
      cases ch with
      | nil => exact absurd rfl (hne [] (by simp))
      | cons b bs =>
          simp only [List.map_cons, List.cons_append, count_nonempty_lines_aux,
            List.append_eq]
          rw [ih (fun x hx => hne x (by simp [hx]))]
          simp only [List.flatten_cons, List.foldl_append, List.foldl_cons]

theorem isWs_iff (b : Nat) : isWs b = true ↔ (b = 13 ∨ b = 32 ∨ b = 9) := by
  simp [isWs]
  tauto

theorem neStep_nl_true (t : Int) :
    neStep (t, true) 10 = (wrap32 (t + 1), false) := by
  simp [neStep]

theorem neStep_nl_false (t : Int) :
    neStep (t, false) 10 = (t, false) := by
  simp [neStep]

theorem neStep_ws (st : Int × Bool) (b : Nat) (hb : b ≠ 10)
    (hw : isWs b = true) : neStep st b = st := by
  rw [neStep, if_neg hb, if_pos ((isWs_iff b).mp hw)]

theorem neStep_data (st : Int × Bool) (b : Nat) (hb : b ≠ 10)
    (hw : isWs b = false) : neStep st b = (st.1, true) := by
  rw [neStep, if_neg hb, if_neg]
  intro hc
  rw [(isWs_iff b).mpr hc] at hw
  simp at hw

theorem foldl_neStep_no_nl (l : List Nat) (hl : 10 ∉ l) :
    ∀ st : Int × Bool, l.foldl neStep st = (st.1, st.2 || hasData l) := by
  induction l with
  | nil => intro st; simp [hasData]
  | cons b t ih =>
      intro st
      have hb : b ≠ 10 := fun h => hl (by simp [h])
      have ht : 10 ∉ t := fun h => hl (by simp [h])
      rw [List.foldl_cons, ih ht]
      cases hw : isWs b with
      | true =>
          rw [neStep_ws st b hb hw]
          simp [hasData, List.any_cons, hw]
      | false =>
          rw [neStep_data st b hb hw]
          simp [hasData, List.any_cons, hw]

theorem splitNl_ne_nil (l : List Nat) : splitNl l ≠ [] := by
  induction l with
  | nil => simp [splitNl]
  | cons b t ih =>
      rw [splitNl]
      split
      · simp
      · rcases List.exists_cons_of_ne_nil ih with ⟨s, ss, hs⟩
        rw [hs]
        simp [List.modifyHead]

theorem countSegs_false (segs : List (List Nat)) :
    countSegs false segs = (segs.countP hasData : Int) := by
  cases segs with
  | nil => simp [countSegs]
  | cons s ss =>
      rw [countSegs, List.countP_cons]
      push_cast
      cases h : hasData s <;> simp [h] <;> ring

theorem finalizeNE_foldl (l : List Nat) :
    ∀ (t : Int) (h : Bool), wrap32 t = t →
      finalizeNE (l.foldl neStep (t, h)) =
        wrap32 (t + countSegs h (splitNl l)) := by
  induction l with
  | nil =>
      intro t h ht
      rw [splitNl, countSegs]
      simp only [List.foldl_nil, finalizeNE, List.countP_nil, hasData,
        List.any_nil, Bool.or_false]
      cases h with
      | true => simp
      | false => simp [ht]
  | cons b rest ih =>
      intro t h ht
      rcases List.exists_cons_of_ne_nil (splitNl_ne_nil rest) with ⟨s, ss, hs⟩
      by_cases hb : b = 10
      · subst hb
        rw [splitNl, if_pos rfl, countSegs]
        cases h with
        | true =>
            rw [List.foldl_cons, neStep_nl_true,
              ih _ false (wrap32_idem _), countSegs_false, wrap32_add_left]
            congr 1
            simp [hasData]
            ring
        | false =>
            rw [List.foldl_cons, neStep_nl_false, ih _ false ht,
              countSegs_false]
            congr 1
            simp [hasData]
      · have hsplit : splitNl (b :: rest) = (b :: s) :: ss := by
          rw [splitNl, if_neg hb, hs]
          simp [List.modifyHead]
        cases hw : isWs b with
        | true =>
            rw [List.foldl_cons, neStep_ws (t, h) b hb hw, ih _ _ ht, hs,
              hsplit, countSegs, countSegs]
            have hd : hasData (b :: s) = hasData s := by
              simp [hasData, List.any_cons, hw]
            rw [hd]
        | false =>
            rw [List.foldl_cons, neStep_data (t, h) b hb hw]
            have h2 := ih t true ht
            simp only [hs, countSegs, Bool.true_or, if_true] at h2
            rw [h2, hsplit, countSegs]
            have hd : hasData (b :: s) = true := by
              simp [hasData, List.any_cons, hw]
            rw [hd]
            simp

theorem splitNl_mem (l : List Nat) :
    ∀ s ∈ splitNl l, ∀ b ∈ s, b ∈ l ∧ b ≠ 10 := by
  induction l with
  | nil =>
      intro s hs b hb
      rw [splitNl] at hs
      simp at hs
      subst hs
      simp at hb
  | cons x t ih =>
      intro s hs b hb
      rw [splitNl] at hs
      by_cases hx : x = 10
      · rw [if_pos hx] at hs
        rcases List.mem_cons.mp hs with h1 | h1
        · subst h1; simp at hb
        · rcases ih s h1 b hb with ⟨h2, h3⟩
          exact ⟨by simp [h2], h3⟩
      · rw [if_neg hx] at hs
        rcases List.exists_cons_of_ne_nil (splitNl_ne_nil t) with ⟨s0, ss, h0⟩
        rw [h0] at hs
        simp only [List.modifyHead] at hs
        rcases List.mem_cons.mp hs with h1 | h1
        · subst h1
          rcases List.mem_cons.mp hb with h2 | h2
          · subst h2; exact ⟨by simp, hx⟩
          · rcases ih s0 (by rw [h0]; simp) b h2 with ⟨h3, h4⟩
            exact ⟨by simp [h3], h4⟩
        · rcases ih s (by rw [h0]; simp [h1]) b hb with ⟨h3, h4⟩
          exact ⟨by simp [h3], h4⟩

theorem count_newlines_fast_readsOf (c : Nat) (hc : 0 < c)
    (content : List Nat) :
    count_newlines_fast (readsOf c content) =
      (wrap32 (content.count 10 : Int), []) := by
  rw [count_newlines_fast, readsOf,
    count_newlines_fast_aux_chunks (chunksOf c content)
      (chunksOf_ne_nil c hc content) 0 wrap32_zero,
    chunksOf_flatten c hc content, zero_add]

theorem count_newlines_fast_readsOf_in_range (c : Nat) (hc : 0 < c)
    (content : List Nat) (hlt : content.count 10 < 2 ^ 31) :
    count_newlines_fast (readsOf c content) =
      ((content.count 10 : Int), []) := by
  have hlt2 : content.count 10 < 2147483648 := by
    have h31 : (2 : Nat) ^ 31 = 2147483648 := by norm_num
    rw [h31] at hlt
    exact hlt
  rw [count_newlines_fast_readsOf c hc content, wrap32_eq_self _
    (le_trans (by norm_num : (-2147483648 : Int) ≤ 0) (Int.natCast_nonneg _))
    (by exact_mod_cast hlt2)]

theorem count_nonempty_lines_readsOf (c : Nat) (hc : 0 < c)
    (content : List Nat) :
    count_nonempty_lines (readsOf c content) =
      (wrap32 (((splitNl content).countP hasData : Int)), []) := by
  rw [count_nonempty_lines, readsOf,
    count_nonempty_lines_aux_chunks (chunksOf c content)
      (chunksOf_ne_nil c hc content) 0 false,
    chunksOf_flatten c hc content, finalizeNE_foldl content 0 false wrap32_zero,
    countSegs_false, zero_add]

theorem count_nonempty_lines_readsOf_in_range (c : Nat) (hc : 0 < c)
    (content : List Nat) (hlt : (splitNl content).countP hasData < 2 ^ 31) :
    count_nonempty_lines (readsOf c content) =
      (((splitNl content).countP hasData : Int), []) := by
  have hlt2 : (splitNl content).countP hasData < 2147483648 := by
    have h31 : (2 : Nat) ^ 31 = 2147483648 := by norm_num
    rw [h31] at hlt
    exact hlt
  rw [count_nonempty_lines_readsOf c hc content, wrap32_eq_self _
    (le_trans (by norm_num : (-2147483648 : Int) ≤ 0) (Int.natCast_nonneg _))
    (by exact_mod_cast hlt2)]

theorem flatten_reverse_perm (L : List (List Nat)) :
    (L.reverse.flatten).Perm L.flatten := by
  induction L with
  | nil => simp
  | cons x L ih =>
      simp only [List.reverse_cons, List.flatten_append, List.flatten_cons,
        List.flatten_nil, List.append_nil]
      exact List.Perm.trans List.perm_append_comm (ih.append_left x)

theorem walk_recursive_perm_aux :
    ∀ (n : Nat) (stack : List FsTree), (stack.map treeSize).sum ≤ n →
      (walk_recursive stack).Perm (stack.map filesOf).flatten := by
  intro n
  induction n with
  | zero =>
      intro stack h
      cases stack with
      | nil => simp [walk_recursive]
      | cons t rest =>
          exfalso
          have h1 := treeSize_pos t
          simp only [List.map_cons, List.sum_cons] at h
          omega
  | succ n ih =>
      intro stack h
      match stack with
      | [] => simp [walk_recursive]
      | FsTree.file l :: rest =>
          rw [walk_recursive]
          simp only [List.map_cons, List.flatten_cons, filesOf,
            List.singleton_append]
          refine List.Perm.cons l (ih rest ?_)
          simp only [List.map_cons, List.sum_cons, treeSize] at h
          omega
      | FsTree.dir false es :: rest =>
          rw [walk_recursive]
          simp only [List.map_cons, List.flatten_cons, filesOf,
            List.nil_append]
          refine ih rest ?_
          have h1 := treeSize_pos (FsTree.dir false es)
          simp only [List.map_cons, List.sum_cons] at h
          omega
      | FsTree.dir true es :: rest =>
          rw [walk_recursive]
          refine (ih (es.reverse ++ rest) ?_).trans ?_
          · simp only [List.map_cons, List.sum_cons, treeSize_dir] at h
            simp only [List.map_append, List.map_reverse, List.sum_append,
              List.sum_reverse]
            omega
          · simp only [List.map_append, List.map_reverse, List.flatten_append,
              List.map_cons, List.flatten_cons, filesOf_dir_true]
            exact (flatten_reverse_perm (es.map filesOf)).append_right _

theorem walk_recursive_perm (t : FsTree) :
    (walk_recursive [t]).Perm (filesOf t) := by
  have h := walk_recursive_perm_aux ((([t]).map treeSize).sum) [t] le_rfl
  simpa using h

theorem foldl_neStep_snd_end_nl (a0 : List Nat) (st : Int × Bool) :
    (((a0 ++ [10]).foldl neStep st)).2 = false := by
  rw [List.foldl_append]
  simp [neStep]

theorem count_nonempty_lines_readsOf_foldl (c : Nat) (hc : 0 < c)
    (l : List Nat) :
    count_nonempty_lines (readsOf c l) =
      (finalizeNE (l.foldl neStep (0, false)), []) := by
  rw [count_nonempty_lines, readsOf,
    count_nonempty_lines_aux_chunks (chunksOf c l) (chunksOf_ne_nil c hc l)
      0 false,
    chunksOf_flatten c hc l]

/-- C1: in skip-empty mode, for every byte stream read through a positive
buffer size, the flag machine of `count_nonempty_lines` (a newline byte
increments the `i32` total exactly when the has-data flag is set and clears
the flag; carriage return, space and tab leave the flag unchanged; every
other byte sets it; end-of-stream adds one more line when the flag is still
set) returns the `i32`-wrapped number of newline-delimited segments — the
trailing unterminated one included — that contain at least one
non-whitespace byte; the count is exact whenever that number is within
`i32` range, and a stream of only whitespace bytes and newlines counts 0
lines. -/
theorem claim_C1_skip_empty_flag_machine (c : Nat) (hc : 0 < c)
    (content : List Nat) :
    count_nonempty_lines (readsOf c content) =
      (wrap32 (((splitNl content).countP hasData : Int)), [])
    ∧ ((splitNl content).countP hasData < 2 ^ 31 →
        count_nonempty_lines (readsOf c content) =
          (((splitNl content).countP hasData : Int), []))
    ∧ ((∀ b ∈ content, isWs b = true ∨ b = 10) →
        (count_nonempty_lines (readsOf c content)).1 = 0) := by
  refine ⟨count_nonempty_lines_readsOf c hc content,
    count_nonempty_lines_readsOf_in_range c hc content, ?_⟩
  intro hws
  have hz : (splitNl content).countP hasData = 0 := by
    rw [List.countP_eq_zero]
    intro s hs hdata
    rcases List.any_eq_true.mp hdata with ⟨b, hb, hnw⟩
    rcases splitNl_mem content s hs b hb with ⟨hbc, hb10⟩
    rcases hws b hbc with h1 | h1
    · rw [h1] at hnw
      exact Bool.false_ne_true (by simpa using hnw)
    · exact hb10 h1
  rw [count_nonempty_lines_readsOf c hc content, hz]
  simp [wrap32_zero]

/-- C1 witness: the theorem applied at buffer size 2 and a concrete stream
with a whitespace-only middle line and an unterminated last line. -/
theorem claim_C1_witness :
    0 < 2
    ∧ (count_nonempty_lines (readsOf 2 [97, 10, 32, 10, 98]) =
        (wrap32 (((splitNl [97, 10, 32, 10, 98]).countP hasData : Int)), [])
      ∧ ((splitNl [97, 10, 32, 10, 98]).countP hasData < 2 ^ 31 →
          count_nonempty_lines (readsOf 2 [97, 10, 32, 10, 98]) =
            (((splitNl [97, 10, 32, 10, 98]).countP hasData : Int), []))
      ∧ ((∀ b ∈ [97, 10, 32, 10, 98], isWs b = true ∨ b = 10) →
          (count_nonempty_lines (readsOf 2 [97, 10, 32, 10, 98])).1 = 0)) :=
  ⟨by decide,
    claim_C1_skip_empty_flag_machine 2 (by decide) [97, 10, 32, 10, 98]⟩

/-- C2 counterexample: the claim says raw mode returns exactly the number
of newline byte occurrences — in particular exactly N for a file of solely
N newline bytes.  At N = `2 ^ 31` the `i32` total overflows and wraps: read
with the default 8 KiB buffer the program returns `-2 ^ 31`, not `2 ^ 31`,
so the exactness fails at this concrete input. -/
theorem claim_C2_counterexample :
    count_newlines_fast (readsOf 8192 (List.replicate (2 ^ 31) 10)) =
      (-2147483648, [])
    ∧ ((-2147483648 : Int) ≠ (((2 ^ 31 : Nat) : Nat) : Int)) := by
  constructor
  · rw [count_newlines_fast_readsOf 8192 (by norm_num),
      List.count_replicate_self, wrap32_two_pow_31]
  · norm_num

/-- C2 amended: raw mode returns the `i32` (two's-complement wrapped) count
of newline bytes — exactly the number of newline occurrences whenever that
number is below `2 ^ 31`, and in particular exactly N for a file of solely
N < `2 ^ 31` newline bytes; a final non-whitespace line without a
terminating newline is not counted by raw mode (the raw count with the
trailing line equals the raw count without it) while skip-empty mode does
count it (its total is the `i32` increment of the total without it). -/
theorem claim_C2_amended (c : Nat) (hc : 0 < c)
    (content a b : List Nat) (hb10 : 10 ∉ b) (hbd : hasData b = true)
    (ha : a = [] ∨ ∃ a0, a = a0 ++ [10]) :
    count_newlines_fast (readsOf c content) =
      (wrap32 (content.count 10 : Int), [])
    ∧ (content.count 10 < 2 ^ 31 →
        count_newlines_fast (readsOf c content) =
          ((content.count 10 : Int), []))
    ∧ (∀ N : Nat, N < 2 ^ 31 →
        count_newlines_fast (readsOf c (List.replicate N 10)) =
          ((N : Int), []))
    ∧ (count_newlines_fast (readsOf c (a ++ b))).1 =
        (count_newlines_fast (readsOf c a)).1
    ∧ (count_nonempty_lines (readsOf c (a ++ b))).1 =
        wrap32 ((count_nonempty_lines (readsOf c a)).1 + 1) := by
  refine ⟨count_newlines_fast_readsOf c hc content,
    count_newlines_fast_readsOf_in_range c hc content, ?_, ?_, ?_⟩
  · intro N hN
    rw [count_newlines_fast_readsOf_in_range c hc _
      (by rw [List.count_replicate_self]; exact hN)]
    rw [List.count_replicate_self]
  · rw [count_newlines_fast_readsOf c hc, count_newlines_fast_readsOf c hc]
    dsimp only
    rw [List.count_append, List.count_eq_zero.mpr hb10]
    simp
  · rw [count_nonempty_lines_readsOf_foldl c hc,
      count_nonempty_lines_readsOf_foldl c hc]
    dsimp only
    rw [List.foldl_append]
    have hsnd : (a.foldl neStep (0, false)).2 = false := by
      rcases ha with rfl | ⟨a0, rfl⟩
      · simp
      · exact foldl_neStep_snd_end_nl a0 (0, false)
    rw [foldl_neStep_no_nl b hb10 (a.foldl neStep (0, false))]
    simp [finalizeNE, hsnd, hbd]

/-- C2 witness: the amended theorem applied at buffer size 2, a concrete
stream, and a concrete terminated prefix plus unterminated non-whitespace
last line. -/
theorem claim_C2_witness :
    (10 ∉ ([98, 32] : List Nat))
    ∧ hasData [98, 32] = true
    ∧ (([97, 10] : List Nat) = [] ∨ ∃ a0, [97, 10] = a0 ++ [10])
    ∧ (count_newlines_fast (readsOf 2 [10, 10, 97]) =
        (wrap32 ((([10, 10, 97] : List Nat).count 10 : Int)), [])
      ∧ (([10, 10, 97] : List Nat).count 10 < 2 ^ 31 →
          count_newlines_fast (readsOf 2 [10, 10, 97]) =
            ((([10, 10, 97] : List Nat).count 10 : Int), []))
      ∧ (∀ N : Nat, N < 2 ^ 31 →
          count_newlines_fast (readsOf 2 (List.replicate N 10)) =
            ((N : Int), []))
      ∧ (count_newlines_fast (readsOf 2 ([97, 10] ++ [98, 32]))).1 =
          (count_newlines_fast (readsOf 2 [97, 10])).1
      ∧ (count_nonempty_lines (readsOf 2 ([97, 10] ++ [98, 32]))).1 =
          wrap32 ((count_nonempty_lines (readsOf 2 [97, 10])).1 + 1)) :=
  ⟨by decide, by decide, Or.inr ⟨[97], rfl⟩,
    claim_C2_amended 2 (by decide) [10, 10, 97] [97, 10] [98, 32]
      (by decide) (by decide) (Or.inr ⟨[97], rfl⟩)⟩

/-- C3 counterexample: the claim says a directory-listing failure is
recovered at the walker level in either traversal mode, by silently skipping
the listing.  But `walk_shallow` calls `read_dir(path).unwrap()`
(src/main.rs line 185): when listing the target directory fails, the
`unwrap` panics — modelled as the walker returning `none` instead of a
(possibly empty) yielded sequence — so the failure is fatal, the run does
not complete, and no total is reported. -/
theorem claim_C3_counterexample :
    walk_shallow (FsTree.dir false []) = none := rfl

/-- C3 amended: a directory-listing failure in RECURSIVE traversal is
recovered at the walker level by silently skipping that listing or subtree
(an unreadable root yields nothing; an unreadable subtree contributes
nothing), and shallow traversal of a READABLE directory yields its listing;
but in shallow traversal an unreadable target directory makes the walker
panic (`unwrap`), which is fatal. -/
theorem claim_C3_amended (es sub ts : List FsTree) :
    walk_recursive [FsTree.dir false es] = []
    ∧ (walk_recursive [FsTree.dir true (FsTree.dir false sub :: ts)]).Perm
        (walk_recursive [FsTree.dir true ts])
    ∧ walk_shallow (FsTree.dir true es) = some es
    ∧ walk_shallow (FsTree.dir false es) = none := by
  refine ⟨by simp [walk_recursive], ?_, rfl, rfl⟩
  have h1 : filesOf (FsTree.dir true (FsTree.dir false sub :: ts)) =
      filesOf (FsTree.dir true ts) := by
    rw [filesOf_dir_true, filesOf_dir_true]
    simp [filesOf]
  refine (walk_recursive_perm _).trans ?_
  rw [h1]
  exact (walk_recursive_perm _).symm

/-- C5: for every byte content and both counting modes, the count is
independent of the (positive) buffer size used to read it. -/
theorem claim_C5_chunk_size_independent (c1 c2 : Nat) (h1 : 0 < c1)
    (h2 : 0 < c2) (content : List Nat) :
    count_newlines_fast (readsOf c1 content) =
      count_newlines_fast (readsOf c2 content)
    ∧ count_nonempty_lines (readsOf c1 content) =
      count_nonempty_lines (readsOf c2 content) := by
  refine ⟨?_, ?_⟩
  · rw [count_newlines_fast_readsOf c1 h1, count_newlines_fast_readsOf c2 h2]
  · rw [count_nonempty_lines_readsOf c1 h1,
      count_nonempty_lines_readsOf c2 h2]

/-- C5 witness: identical counts with 1 KiB and 64 KiB buffers on a concrete
stream. -/
theorem claim_C5_witness :
    0 < 1024
    ∧ 0 < 65536
    ∧ (count_newlines_fast (readsOf 1024 [97, 10, 98]) =
        count_newlines_fast (readsOf 65536 [97, 10, 98])
      ∧ count_nonempty_lines (readsOf 1024 [97, 10, 98]) =
        count_nonempty_lines (readsOf 65536 [97, 10, 98])) :=
  ⟨by decide, by decide,
    claim_C5_chunk_size_independent 1024 65536 (by decide) (by decide)
      [97, 10, 98]⟩

/-- C6: the extension filter accepts a path exactly when its extension,
ASCII-lowercased, equals one of the 41 fixed allowed extensions; a path with
no extension is rejected; `a.TXT` is accepted, `a.exe` and the extensionless
`a` are rejected. -/
theorem claim_C6_extension_filter :
    FILE_EXT_LIST.length = 41
    ∧ (∀ name : List Char, is_valid_ext name = true ↔
        ∃ ext, extOf name = some ext ∧
          String.mk (ext.map asciiLower) ∈ FILE_EXT_LIST)
    ∧ is_valid_ext ("a.TXT".toList) = true
    ∧ is_valid_ext ("a.exe".toList) = false
    ∧ is_valid_ext ("a".toList) = false := by
  refine ⟨by decide, ?_, by decide, by decide, by decide⟩
  intro name
  rw [is_valid_ext]
  cases hx : extOf name with
  | none => simp
  | some ext =>
      dsimp only
      rw [List.any_eq_true]
      constructor
      · rintro ⟨allowed, hmem, heq⟩
        refine ⟨ext, rfl, ?_⟩
        have heq2 : allowed.toList = ext.map asciiLower := eq_of_beq heq
        have h3 : String.mk (ext.map asciiLower) = allowed := by
          rw [← heq2]
          cases allowed
          rfl
        rw [h3]
        exact hmem
      · rintro ⟨ext2, hsome, hmem⟩
        have hee : ext = ext2 := Option.some.inj hsome
        subst hee
        exact ⟨String.mk (ext.map asciiLower), hmem, by simp⟩

/-- C7: `process_file` returns 0 with no stderr and without consulting the
file system when the extension filter rejects the path; on an open failure
it emits a diagnostic naming the path and error and returns 0; otherwise it
returns exactly the selected counter's result. -/
theorem claim_C7_process_file_contract (fs fs2 : List Char → OpenResult)
    (p : List Char) (s : Bool) (e : String) (reads : List ReadResult) :
    (is_valid_ext p = false →
      process_file fs p s = (0, []) ∧
        process_file fs p s = process_file fs2 p s)
    ∧ (is_valid_ext p = true → fs p = OpenResult.err e →
        process_file fs p s =
          (0, ["Cannot open " ++ String.mk p ++ ": " ++ e]))
    ∧ (is_valid_ext p = true → fs p = OpenResult.ok reads →
        process_file fs p s =
          (if s then count_nonempty_lines reads
            else count_newlines_fast reads)) := by
  refine ⟨?_, ?_, ?_⟩
  · intro hval
    constructor
    · rw [process_file, if_pos (by simp [hval])]
    · rw [process_file, if_pos (by simp [hval]),
        process_file, if_pos (by simp [hval])]
  · intro hval hfs
    rw [process_file, if_neg (by simp [hval]), hfs]
  · intro hval hfs
    rw [process_file, if_neg (by simp [hval]), hfs]

/-- C7 witness: the three conjuncts resolved at concrete paths and file
systems: a rejected extension, a failing open, and a successful open. -/
theorem claim_C7_witness :
    process_file (fun _ => OpenResult.err ("denied")) ("a.exe".toList) true
        = (0, [])
    ∧ process_file (fun _ => OpenResult.err ("denied")) ("a.txt".toList) true
        = (0, ["Cannot open " ++ String.mk ("a.txt".toList) ++ ": " ++
            "denied"])
    ∧ process_file (fun _ => OpenResult.ok [ReadResult.ok []])
        ("a.txt".toList) false
        = (if false then count_nonempty_lines [ReadResult.ok []]
            else count_newlines_fast [ReadResult.ok []]) :=
  ⟨((claim_C7_process_file_contract (fun _ => OpenResult.err ("denied"))
      (fun _ => OpenResult.err ("denied")) ("a.exe".toList) true ("denied")
      []).1 (by decide)).1,
    (claim_C7_process_file_contract (fun _ => OpenResult.err ("denied"))
      (fun _ => OpenResult.err ("denied")) ("a.txt".toList) true ("denied")
      []).2.1 (by decide) rfl,
    (claim_C7_process_file_contract
      (fun _ => OpenResult.ok [ReadResult.ok []])
      (fun _ => OpenResult.ok [ReadResult.ok []]) ("a.txt".toList) false
      "denied" [ReadResult.ok []]).2.2 (by decide) rfl⟩

/-- C8: in both modes a mid-stream read error stops the reading of that
file (the result does not depend on any read outcomes that would follow
the error), the `i32` counts accumulated before the error are kept and
returned, and the error is reported on the stderr channel. -/
theorem claim_C8_read_error_stops (chunks : List (List Nat)) (e : String)
    (rest : List ReadResult) (hne : ∀ ch ∈ chunks, ch ≠ []) :
    count_newlines_fast (chunks.map ReadResult.ok ++ ReadResult.err e :: rest)
      = (wrap32 (chunks.flatten.count 10 : Int), ["Read error: " ++ e])
    ∧ count_nonempty_lines
        (chunks.map ReadResult.ok ++ ReadResult.err e :: rest)
      = ((chunks.flatten.foldl neStep (0, false)).1, ["Read error: " ++ e])
    ∧ count_newlines_fast
        (chunks.map ReadResult.ok ++ ReadResult.err e :: rest)
      = count_newlines_fast (chunks.map ReadResult.ok ++ [ReadResult.err e])
    ∧ count_nonempty_lines
        (chunks.map ReadResult.ok ++ ReadResult.err e :: rest)
      = count_nonempty_lines
          (chunks.map ReadResult.ok ++ [ReadResult.err e]) := by
  have hraw := count_newlines_fast_aux_chunks_err chunks hne e rest 0
    wrap32_zero
  have hraw0 := count_newlines_fast_aux_chunks_err chunks hne e [] 0
    wrap32_zero
  have hne2 := count_nonempty_lines_aux_chunks_err chunks hne e rest 0 false
  have hne0 := count_nonempty_lines_aux_chunks_err chunks hne e [] 0 false
  rw [zero_add] at hraw hraw0
  refine ⟨hraw, hne2, ?_, ?_⟩
  · rw [count_newlines_fast, count_newlines_fast, hraw, hraw0]
  · rw [count_nonempty_lines, count_nonempty_lines, hne2, hne0]

/-- C8 witness: a read error after one successful chunk on a concrete
stream, with further pending outcomes that are never consulted. -/
theorem claim_C8_witness :
    (∀ ch ∈ ([[97, 10]] : List (List Nat)), ch ≠ [])
    ∧ count_newlines_fast
        ([[97, 10]].map ReadResult.ok ++
          ReadResult.err ("boom") :: [ReadResult.ok [10]])
      = (wrap32 ((([[97, 10]] : List (List Nat)).flatten.count 10 : Int)),
          ["Read error: " ++ "boom"]) :=
  ⟨by decide,
    (claim_C8_read_error_stops [[97, 10]] ("boom") [ReadResult.ok [10]]
      (by decide)).1⟩

/-- C9: on every finite cycle-free directory tree the recursive walker — a
total function defined by popping an explicit stack seeded with the root,
where popping a readable directory pushes its entries and popping a file
yields it — terminates (it is a total function of the tree) and yields
exactly the files reachable at every depth through readable directories (as
a permutation of the reference depth-first enumeration `filesOf`); the
shallow walker yields exactly the immediate entries of a readable directory
and never descends. -/
theorem claim_C9_walker_traversal (t : FsTree) (es : List FsTree) :
    (walk_recursive [t]).Perm (filesOf t)
    ∧ walk_shallow (FsTree.dir true es) = some es :=
  ⟨walk_recursive_perm t, rfl⟩

/-- C10: a buffer size of 0 parses successfully (no warning, no fallback)
and scales to 0 bytes; with a zero-length buffer every read returns zero
bytes at once, so both counting modes return 0 with no stderr output for
every file content. -/
theorem claim_C10_zero_buffer (content : List Nat) :
    parse_buffer_size ("0") = ([], 0)
    ∧ readsOf 0 content = [ReadResult.ok []]
    ∧ count_newlines_fast (readsOf 0 content) = (0, [])
    ∧ count_nonempty_lines (readsOf 0 content) = (0, []) := by
  refine ⟨by decide, ?_, ?_, ?_⟩
  · rw [readsOf, chunksOf_zero]
    rfl
  · rw [readsOf, chunksOf_zero]
    rfl
  · rw [readsOf, chunksOf_zero]
    rfl

end LineCounter
